import Mathlib

/-!
Verification development for the reactive state engine of the Refract
repository ("refraction" cells, dependency tracker, derived computations,
effects and the batching scheduler).  The repository ships documentation
only — no executable runtime is present under src/ — so every definition
below is a model built from the specification's own description of the
engine (spec.md §3–§7), and the theorems settle the spec's testable
properties against that model.
-/

namespace Refract

/-- Cell identifiers: an index into the system's cell table. -/
abbrev CellId := Nat

/-- Subscriber identifiers: an index into the system's subscriber table
(registration order is ascending id order). -/
abbrev SubId := Nat

/-- Values stored in Cells.  The spec leaves the value type abstract
("any semantic type T"); numbers suffice for every claim. -/
abbrev Val := Nat

/-! ## Dependency Tracker (spec §4.2)

Modelled from the spec: a re-entrant stack of frames; a recording frame is
a list of the CellIds read so far, a `none` frame is the `untracked`
escape hatch.  Tracked bodies are modelled syntactically so that an
exception inside the body is a program point, not a Lean-level exception. -/

/-- Modelled from the spec: one tracker frame — `some deps` while
recording, `none` inside `untracked`. -/
abbrev Frame := Option (List CellId)

/-- Modelled from the spec: the tracker stack, topmost frame first. -/
abbrev TrackerStack := List Frame

/-- Modelled from the spec: a computation run under the tracker.  It can
read cells, throw, and contain nested `runTracked` / `untracked` blocks;
the repository ships no implementation, so the body is this small
syntactic language of tracker-relevant actions. -/
inductive TProg where
  | ret (v : Val)
  | readCell (c : CellId) (rest : TProg)
  | throwErr (rest : TProg)
  | nestTracked (inner rest : TProg)
  | nestUntracked (inner rest : TProg)
deriving Repr

/-- Modelled from the spec: a Cell `read()` during tracked evaluation adds
the cell to the current (topmost) dependency set; inside `untracked` the
topmost frame is `none` and nothing is recorded. -/
def addDep (c : CellId) : TrackerStack → TrackerStack
  | [] => []
  | none :: rest => none :: rest
  | some ds :: rest => some (ds ++ [c]) :: rest

/-- Modelled from the spec: errors surfacing from a tracked body. -/
inductive TErr where
  | userExn
deriving Repr, DecidableEq

/-- Modelled from the spec: the tracker's interpreter.  `nestTracked`
pushes a fresh recording frame and pops it on BOTH exit paths (normal
return and thrown exception); `nestUntracked` pushes a `none` frame with
the same pop discipline.  This is the exception-safety discipline the
spec calls the tracker's single most important correctness property. -/
def runProg : TProg → TrackerStack → Except TErr Val × TrackerStack
  | .ret v, st => (.ok v, st)
  | .readCell c rest, st => runProg rest (addDep c st)
  | .throwErr _, st => (.error .userExn, st)
  | .nestTracked inner rest, st =>
      let out := runProg inner (some [] :: st)
      match out.1 with
      | .ok _ => runProg rest out.2.tail
      | .error e => (.error e, out.2.tail)
  | .nestUntracked inner rest, st =>
      let out := runProg inner (none :: st)
      match out.1 with
      | .ok _ => runProg rest out.2.tail
      | .error e => (.error e, out.2.tail)

/-- Modelled from the spec: `runTracked(fn)` — push a fresh empty
dependency set, run the body, pop the frame (on every exit path), and
return the result together with the recorded dependencies. -/
def runTracked (inner : TProg) (st : TrackerStack) :
    Except TErr (Val × List CellId) × TrackerStack :=
  let out := runProg inner (some [] :: st)
  let deps := match out.2.head? with
    | some (some ds) => ds
    | _ => []
  (match out.1 with
   | .ok v => .ok (v, deps)
   | .error e => .error e, out.2.tail)

/-- Modelled from the spec: `untracked(fn)` — push a `none` frame so that
reads inside record nothing, restoring the prior recording state after. -/
def untracked (inner : TProg) (st : TrackerStack) :
    Except TErr Val × TrackerStack :=
  let out := runProg inner (none :: st)
  (out.1, out.2.tail)

/-- The interpreter never changes anything but the topmost frame: the tail
of the stack (and its length) is preserved by every program, on every
exit path.  This is the inductive heart of tracker exception safety. -/
theorem runProg_preserves_tail (p : TProg) :
    ∀ st : TrackerStack,
      (runProg p st).2.tail = st.tail ∧ (runProg p st).2.length = st.length := by
  induction p with
  | ret v => intro st; exact ⟨rfl, rfl⟩
  | readCell c rest ih =>
      intro st
      have h := ih (addDep c st)
      have htail : (addDep c st).tail = st.tail := by
        cases st with
        | nil => rfl
        | cons f rest' => cases f <;> rfl
      have hlen : (addDep c st).length = st.length := by
        cases st with
        | nil => rfl
        | cons f rest' => cases f <;> rfl
      simpa [runProg, htail, hlen] using h
  | throwErr rest ih => intro st; exact ⟨rfl, rfl⟩
  | nestTracked inner rest ih₁ ih₂ =>
      intro st
      have h₁ := ih₁ (some [] :: st)
      simp only [List.tail_cons, List.length_cons] at h₁
      simp only [runProg]
      cases hout : (runProg inner (some [] :: st)).1 with
      | ok v =>
          simp only [hout]
          have hst : (runProg inner (some [] :: st)).2.tail = st := h₁.1
          rw [hst]
          exact ih₂ st
      | error e =>
          simp only [hout]
          constructor
          · rw [h₁.1]
          · rw [h₁.1]
  | nestUntracked inner rest ih₁ ih₂ =>
      intro st
      have h₁ := ih₁ (none :: st)
      simp only [List.tail_cons, List.length_cons] at h₁
      simp only [runProg]
      cases hout : (runProg inner (none :: st)).1 with
      | ok v =>
          simp only [hout]
          have hst : (runProg inner (none :: st)).2.tail = st := h₁.1
          rw [hst]
          exact ih₂ st
      | error e =>
          simp only [hout]
          constructor
          · rw [h₁.1]
          · rw [h₁.1]

/-- C3: `runTracked(fn)` restores the tracker stack to its pre-call state
on every exit path — for every body `fn` (including bodies that throw,
and bodies containing nested tracked/untracked blocks) the stack after
`runTracked` equals the stack before it, so dependency recording for
subsequent computations is unaffected by an exception inside `fn`. -/
theorem runTracked_restores_stack (inner : TProg) (st : TrackerStack) :
    (runTracked inner st).2 = st ∧ (untracked inner st).2 = st := by
  constructor
  · have h := runProg_preserves_tail inner (some [] :: st)
    simp only [List.tail_cons] at h
    simp [runTracked, h.1]
  · have h := runProg_preserves_tail inner (none :: st)
    simp only [List.tail_cons] at h
    simp [untracked, h.1]

/-! ## Cell (spec §3, §4.1) -/

/-- Modelled from the spec: a Cell holds a value, a monotonically
increasing version counter, the subscriber handles in registration order,
and the optional custom equality function from `create`'s options
(`none` means the default `Object.is` policy, which on our value type is
plain equality). -/
structure Cell where
  value : Val
  version : Nat
  subs : List SubId
  equalsFn : Option (Val → Val → Bool)

/-- Modelled from the spec: the equality policy a Cell applies on write —
the configured function when present, `Object.is` (decidable equality on
our value type) by default. -/
def cellEquals (c : Cell) (a b : Val) : Bool :=
  match c.equalsFn with
  | some f => f a b
  | none => a == b

/-- Modelled from the spec: `read()` returns the current value. -/
def Cell.read (c : Cell) : Val := c.value

/-- Result of a `write`: the updated cell and the subscriber handles
enqueued into the active Scheduler Tick (liveness is checked at delivery,
where delivery to a dead subscriber is a no-op). -/
structure WriteResult where
  cell : Cell
  enqueued : List SubId

/-- Modelled from the spec: `write(newValue)` — a silent no-op when
`equals(current, newValue)` holds under the configured equality function;
otherwise it stores the value, increments the version and enqueues all
subscribers.  Total: never throws for well-formed values. -/
def Cell.write (c : Cell) (v : Val) : WriteResult :=
  if cellEquals c c.value v then ⟨c, []⟩
  else ⟨{ c with value := v, version := c.version + 1 }, c.subs⟩

/-- Modelled from the spec: marking dependent Derived Computations dirty —
dirty flags indexed by subscriber id, set for each enqueued handle. -/
def markDirtyAll (flags : List Bool) (ids : List SubId) : List Bool :=
  ids.foldl (fun fs i => fs.set i true) flags

/-- C2 as stated is false: for a Cell created with a custom equality
function that equates distinct values, `write` is suppressed as a no-op
and the following `read` returns the old value, not the just-written one.
Concrete counterexample: a cell holding 3 whose equality function deems
everything equal; after `write 5`, `read` still returns 3. -/
theorem read_after_write_counterexample :
    ¬ ((Cell.write ⟨3, 0, [], some fun _ _ => true⟩ 5).cell.read = 5) := by
  decide

/-- C2 (amended): for every Cell whose configured equality function
equates only identical values — in particular every Cell using the
default `Object.is` policy — `read()` immediately after `write(v)`
returns exactly `v`. -/
theorem read_after_write (c : Cell) (v : Val)
    (h : ∀ a b, cellEquals c a b = true → a = b) :
    (Cell.write c v).cell.read = v := by
  unfold Cell.write
  by_cases heq : cellEquals c c.value v = true
  · simp only [heq, if_true]
    exact h c.value v heq
  · simp only [heq, if_false]
    rfl

/-- Witness for C2's amended theorem: the default-equality cell holding 3
satisfies the soundness hypothesis, and writing 7 then reading gives 7. -/
theorem read_after_write_witness :
    (Cell.write ⟨3, 0, [], none⟩ 7).cell.read = 7 :=
  read_after_write ⟨3, 0, [], none⟩ 7
    (fun a b hab => by simpa [cellEquals] using hab)

/-- C6: a write of an equality-equivalent value is a complete no-op — the
cell (value, version, subscribers) is unchanged, nothing is enqueued, and
no dependent Derived Computation's dirty flag changes; otherwise the
write stores the new value, increments the version exactly once, keeps
the subscriber list and equality policy, and enqueues every subscriber
handle (liveness filtered at delivery).  `write` is a total function, so
it never throws for well-formed values. -/
theorem write_noop_or_update (c : Cell) (v : Val) :
    (cellEquals c c.value v = true →
      Cell.write c v = ⟨c, []⟩ ∧
      ∀ flags, markDirtyAll flags (Cell.write c v).enqueued = flags) ∧
    (cellEquals c c.value v = false →
      (Cell.write c v).cell.value = v ∧
      (Cell.write c v).cell.version = c.version + 1 ∧
      (Cell.write c v).cell.subs = c.subs ∧
      (Cell.write c v).enqueued = c.subs) := by
  constructor
  · intro heq
    constructor
    · simp [Cell.write, heq]
    · intro flags
      simp [Cell.write, heq, markDirtyAll]
  · intro hne
    simp [Cell.write, hne]

/-- Witness for C6 at a concrete cell: writing the stored value 4 to a
default-equality cell is suppressed, and writing 9 updates value,
version and enqueues the subscribers. -/
theorem write_noop_or_update_witness :
    (Cell.write ⟨4, 2, [0, 1], none⟩ 4 = ⟨⟨4, 2, [0, 1], none⟩, []⟩ ∧
      markDirtyAll [false, false] (Cell.write ⟨4, 2, [0, 1], none⟩ 4).enqueued
        = [false, false]) ∧
    ((Cell.write ⟨4, 2, [0, 1], none⟩ 9).cell.value = 9 ∧
      (Cell.write ⟨4, 2, [0, 1], none⟩ 9).cell.version = 3 ∧
      (Cell.write ⟨4, 2, [0, 1], none⟩ 9).enqueued = [0, 1]) := by
  have h := write_noop_or_update ⟨4, 2, [0, 1], none⟩ 4
  have h9 := write_noop_or_update ⟨4, 2, [0, 1], none⟩ 9
  refine ⟨⟨(h.1 (by decide)).1, (h.1 (by decide)).2 [false, false]⟩, ?_, ?_, ?_⟩
  · exact (h9.2 (by decide)).1
  · exact (h9.2 (by decide)).2.1
  · exact (h9.2 (by decide)).2.2.2

/-! ## Scheduler, batching and flushing (spec §3 "Scheduler Tick", §4.5)

Modelled from the spec: the repository ships no scheduler implementation,
so the Batching/Flushing machinery below is built from §4.5's description:
writes coalesce into a pending set, a flush runs affected Derived
Computations before Effects in registration order, errors are caught at
the scheduler boundary and reported, and writes during a flush are queued
into a new phase bounded by a re-entrancy limit. -/

/-- Modelled from the spec: the priority/kind tag of a Subscriber. -/
inductive SubKind where
  | derived
  | effect
deriving DecidableEq, Repr

/-- Modelled from the spec: the error taxonomy of §7 plus fuel exhaustion
of the bounded evaluator (shown separately never to occur with adequate
fuel) and the unknown-id lookup failure. -/
inductive RunError where
  | cyclicDependency (cycle : List Nat)
  | userExn (code : Nat)
  | outOfFuel
  | unknownDerived
deriving DecidableEq, Repr

/-- Modelled from the spec: a registered Subscriber — kind tag, liveness
flag, and its executable body.  The body receives the snapshot of cell
values it observes and either returns the writes it performs or throws. -/
structure Subscriber where
  kind : SubKind
  live : Bool
  run : List Val → Except RunError (List (CellId × Val))

/-- Modelled from the spec: the static wiring of the system — for each
cell the subscriber handles in registration order, and the subscriber
table itself (registration order is ascending id order). -/
structure Topology where
  cellSubs : List (List SubId)
  subs : List Subscriber

/-- Modelled from the spec: one `write` against the scheduler's store —
a no-op when the new value equals the current one, otherwise it stores
the value and hands back the cell's subscriber handles for enqueueing. -/
def applyWrite (topo : Topology) (store : List Val) (c : CellId) (v : Val) :
    List Val × List SubId :=
  match store[c]? with
  | none => (store, [])
  | some cur =>
      if cur = v then (store, [])
      else (store.set c v, topo.cellSubs.getD c [])

/-- Modelled from the spec: enqueueing into the pending set coalesces —
a handle already pending is not added again ("batched update"). -/
def enqueue (pending : List SubId) (ids : List SubId) : List SubId :=
  ids.foldl (fun p i => if i ∈ p then p else p ++ [i]) pending

/-- Modelled from the spec: a batch — the writes of one `batch()` call
applied in order, coalescing all enqueued subscriber handles. -/
def applyWrites (topo : Topology) (store : List Val) (ws : List (CellId × Val)) :
    List Val × List SubId :=
  ws.foldl
    (fun acc w =>
      let out := applyWrite topo acc.1 w.1 w.2
      (out.1, enqueue acc.2 out.2))
    (store, [])

/-- Whether subscriber `i` exists and has kind `k`. -/
def isKind (topo : Topology) (k : SubKind) (i : SubId) : Bool :=
  match topo.subs[i]? with
  | some s => s.kind == k
  | none => false

/-- Whether subscriber `i` exists and is live. -/
def isLive (topo : Topology) (i : SubId) : Bool :=
  match topo.subs[i]? with
  | some s => s.live
  | none => false

/-- Modelled from the spec: the deterministic execution order of a flush —
affected Derived Computations first, then affected Effects, each kind in
registration (ascending id) order. -/
def flushOrder (topo : Topology) (queue : List SubId) : List SubId :=
  ((List.range topo.subs.length).filter fun i =>
      decide (i ∈ queue) && isKind topo .derived i)
    ++ ((List.range topo.subs.length).filter fun i =>
      decide (i ∈ queue) && isKind topo .effect i)

/-- The running state of one flush: current store, the handles enqueued
by writes performed during the flush (they belong to the next Batching
phase), the reported errors `(error, kind, id)`, and the trace of runs —
each run paired with the snapshot of values it observed. -/
structure FlushAcc where
  store : List Val
  newPending : List SubId
  errors : List (RunError × SubKind × SubId)
  ran : List (SubId × List Val)

/-- Modelled from the spec: dispatch of one queued Subscriber.  Delivery
to a dead or unknown subscriber is a no-op; a live subscriber runs once
against the current store; its writes are applied to the store but their
notifications go to `newPending` (a new Batching phase); a thrown error
is caught here — the scheduler boundary — and reported, without stopping
the flush. -/
def flushStep (topo : Topology) (acc : FlushAcc) (i : SubId) : FlushAcc :=
  match topo.subs[i]? with
  | none => acc
  | some s =>
      if s.live then
        match s.run acc.store with
        | .ok ws =>
            let out := applyWrites topo acc.store ws
            { store := out.1
              newPending := enqueue acc.newPending out.2
              errors := acc.errors
              ran := acc.ran ++ [(i, acc.store)] }
        | .error e =>
            { acc with
              errors := acc.errors ++ [(e, s.kind, i)]
              ran := acc.ran ++ [(i, acc.store)] }
      else acc

/-- Modelled from the spec: one Flushing phase — run the computed order,
each handle at most once, collecting errors without aborting the loop. -/
def runFlush (topo : Topology) (store : List Val) (ord : List SubId) : FlushAcc :=
  ord.foldl (flushStep topo) ⟨store, [], [], []⟩

/-- Outcome of the flush loop: final store, concatenated run traces and
error reports, and whether the re-entrancy bound was exceeded
(`ReentrancyLimitExceeded`, which aborts flushing entirely). -/
structure LoopOut where
  store : List Val
  errors : List (RunError × SubKind × SubId)
  ran : List (SubId × List Val)
  fatal : Bool

/-- Modelled from the spec: the Batching → Flushing loop.  A non-empty
pending set triggers a flush; writes made during that flush start a new
Batching phase processed afterwards; when the writes-during-flush
recursion exceeds the depth bound the scheduler fails fatally. -/
def flushLoop (topo : Topology) : Nat → List Val → List SubId → LoopOut
  | 0, store, queue =>
      if queue.isEmpty then ⟨store, [], [], false⟩
      else ⟨store, [], [], true⟩
  | limit + 1, store, queue =>
      if queue.isEmpty then ⟨store, [], [], false⟩
      else
        let fr := runFlush topo store (flushOrder topo queue)
        let lo := flushLoop topo limit fr.store fr.newPending
        ⟨lo.store, fr.errors ++ lo.errors, fr.ran ++ lo.ran, lo.fatal⟩

/-- Modelled from the spec: one `batch(fn)` call followed by its flush
loop — the writes are grouped, then flushed. -/
def runBatchFlush (topo : Topology) (limit : Nat) (store : List Val)
    (ws : List (CellId × Val)) : LoopOut :=
  let b := applyWrites topo store ws
  flushLoop topo limit b.1 b.2

/-- Modelled from the spec: a sequence of separate `batch()` calls, each
producing its own flush; run traces are concatenated. -/
def processBatches (topo : Topology) (limit : Nat) (store : List Val)
    (batches : List (List (CellId × Val))) : List Val × List (SubId × List Val) :=
  batches.foldl
    (fun acc ws =>
      let lo := runBatchFlush topo limit acc.1 ws
      (lo.store, acc.2 ++ lo.ran))
    (store, [])

/-- All subscriber handles reachable from any cell's subscription list. -/
def joinSubs (topo : Topology) : List SubId :=
  topo.cellSubs.foldr (fun l acc => l ++ acc) []

/-- Modelled from the spec: subscribing handle `i` to cell `c` —
idempotent, appending in registration order. -/
def subscribeCell (cellSubs : List (List SubId)) (i : SubId) (c : CellId) :
    List (List SubId) :=
  match cellSubs[c]? with
  | none => cellSubs
  | some l => if i ∈ l then cellSubs else cellSubs.set c (l ++ [i])

/-- Modelled from the spec: `Effect.create(effectFn, deps)` with an
explicit dependency list — the effect subscribes to exactly the listed
cells and its body runs once immediately; the writes of that first run
are flushed.  Returns the new topology, the effect's handle, the store
after the first run's writes settle, and the trace (first run included). -/
def registerEffect (topo : Topology) (limit : Nat) (store : List Val)
    (run : List Val → Except RunError (List (CellId × Val)))
    (deps : List CellId) :
    Topology × SubId × List Val × List (SubId × List Val) :=
  let i := topo.subs.length
  let cs := deps.foldl (fun acc c => subscribeCell acc i c) topo.cellSubs
  let topo2 : Topology := ⟨cs, topo.subs ++ [⟨.effect, true, run⟩]⟩
  let firstWrites := match run store with
    | .ok ws => ws
    | .error _ => []
  let lo := runBatchFlush topo2 limit store firstWrites
  (topo2, i, lo.store, (i, store) :: lo.ran)

/-! ### Helper lemmas about enqueueing and flushing -/

/-- Membership in a coalesced enqueue: exactly the old pending handles
plus the newly delivered ones. -/
theorem mem_enqueue (ids : List SubId) :
    ∀ (p : List SubId) (j : SubId), j ∈ enqueue p ids ↔ j ∈ p ∨ j ∈ ids := by
  induction ids with
  | nil => intro p j; simp [enqueue]
  | cons i rest ih =>
      intro p j
      show j ∈ enqueue (if i ∈ p then p else p ++ [i]) rest ↔ _
      rw [ih]
      by_cases hip : i ∈ p
      · simp only [if_pos hip, List.mem_cons]
        constructor
        · rintro (h | h)
          · exact Or.inl h
          · exact Or.inr (Or.inr h)
        · rintro (h | h | h)
          · exact Or.inl h
          · exact Or.inl (h ▸ hip)
          · exact Or.inr h
      · simp only [if_neg hip, List.mem_append, List.mem_singleton, List.mem_cons]
        tauto

/-- Coalescing preserves freedom from duplicates. -/
theorem enqueue_nodup (ids : List SubId) :
    ∀ p : List SubId, p.Nodup → (enqueue p ids).Nodup := by
  induction ids with
  | nil => intro p hp; exact hp
  | cons i rest ih =>
      intro p hp
      show (enqueue (if i ∈ p then p else p ++ [i]) rest).Nodup
      by_cases hip : i ∈ p
      · rw [if_pos hip]; exact ih p hp
      · rw [if_neg hip]
        refine ih _ (List.Nodup.append hp (List.nodup_singleton i) ?_)
        intro a ha hb
        rw [List.mem_singleton] at hb
        exact hip (hb ▸ ha)

/-- The ids a single dispatch appends to the trace: the dispatched handle
when it is live, nothing otherwise. -/
theorem flushStep_ran_ids (topo : Topology) (acc : FlushAcc) (i : SubId) :
    (flushStep topo acc i).ran.map Prod.fst
      = acc.ran.map Prod.fst ++ (if isLive topo i then [i] else []) := by
  unfold flushStep isLive
  cases h : topo.subs[i]? with
  | none => simp
  | some s =>
      by_cases hl : s.live
      · cases hr : s.run acc.store <;> simp [hl, hr]
      · simp [hl]

/-- A flush runs exactly the live handles of its order, in order. -/
theorem runFlush_ran_ids (topo : Topology) :
    ∀ (ord : List SubId) (acc : FlushAcc),
      (ord.foldl (flushStep topo) acc).ran.map Prod.fst
        = acc.ran.map Prod.fst ++ ord.filter (fun i => isLive topo i) := by
  intro ord
  induction ord with
  | nil => intro acc; simp
  | cons i rest ih =>
      intro acc
      rw [List.foldl_cons, ih, flushStep_ran_ids, List.filter_cons]
      by_cases hl : isLive topo i <;> simp [hl]

/-- Dispatch only appends to the error report list. -/
theorem flushStep_errors_extend (topo : Topology) (acc : FlushAcc) (i : SubId) :
    ∃ tl, (flushStep topo acc i).errors = acc.errors ++ tl := by
  unfold flushStep
  cases h : topo.subs[i]? with
  | none => exact ⟨[], by simp⟩
  | some s =>
      by_cases hl : s.live
      · cases hr : s.run acc.store with
        | ok ws => exact ⟨[], by simp [hl, hr]⟩
        | error e => exact ⟨[(e, s.kind, i)], by simp [hl, hr]⟩
      · exact ⟨[], by simp [hl]⟩

/-- A flush only appends to the error report list. -/
theorem runFlush_errors_extend (topo : Topology) :
    ∀ (ord : List SubId) (acc : FlushAcc),
      ∃ tl, (ord.foldl (flushStep topo) acc).errors = acc.errors ++ tl := by
  intro ord
  induction ord with
  | nil => intro acc; exact ⟨[], by simp⟩
  | cons i rest ih =>
      intro acc
      obtain ⟨t1, h1⟩ := flushStep_errors_extend topo acc i
      obtain ⟨t2, h2⟩ := ih (flushStep topo acc i)
      exact ⟨t1 ++ t2, by rw [List.foldl_cons, h2, h1, List.append_assoc]⟩

/-- A live subscriber whose body always throws `e` gets the report
`(e, kind, id)` appended when the flush dispatches it. -/
theorem runFlush_reports (topo : Topology) (k : SubId) (s : Subscriber)
    (e : RunError) (hk : topo.subs[k]? = some s) (hlive : s.live = true)
    (hrun : ∀ st, s.run st = .error e) :
    ∀ (ord : List SubId) (acc : FlushAcc), k ∈ ord →
      (e, s.kind, k) ∈ (ord.foldl (flushStep topo) acc).errors := by
  intro ord
  induction ord with
  | nil => intro acc h; exact absurd h (List.not_mem_nil k)
  | cons i rest ih =>
      intro acc hmem
      rw [List.foldl_cons]
      rcases List.mem_cons.mp hmem with heq | htl
      · subst heq
        obtain ⟨tl, htl2⟩ := runFlush_errors_extend topo rest (flushStep topo acc k)
        rw [htl2]
        have hstep : (flushStep topo acc k).errors
            = acc.errors ++ [(e, s.kind, k)] := by
          unfold flushStep
          rw [hk]
          simp [hlive, hrun acc.store]
        rw [hstep]
        simp
      · exact ih (flushStep topo acc i) htl

/-- Setting an index to the value it already holds leaves a list
unchanged. -/
theorem set_self_of_getElem (store : List Val) (c : Nat) (cur : Val)
    (h : store[c]? = some cur) : store.set c cur = store := by
  have hi : c < store.length := by
    by_contra hc
    push_neg at hc
    rw [List.getElem?_eq_none hc] at h
    exact Option.noConfusion h
  apply List.ext_getElem
  · simp
  · intro j hj hj2
    by_cases hij : c = j
    · subst hij
      have h2 := List.getElem?_eq_getElem hi
      rw [h2] at h
      simp only [List.getElem_set, if_pos rfl]
      exact (Option.some_inj.mp h).symm
    · simp [List.getElem_set, hij]

/-- A single write leaves the store at `store.set c v`: an out-of-range
write and a suppressed equal-value write both coincide with `set`. -/
theorem applyWrite_values (topo : Topology) (store : List Val) (c : CellId)
    (v : Val) : (applyWrite topo store c v).1 = store.set c v := by
  unfold applyWrite
  cases h : store[c]? with
  | none =>
      have hlen : store.length ≤ c := by
        by_contra hc
        push_neg at hc
        rw [List.getElem?_eq_getElem hc] at h
        exact Option.noConfusion h
      simp [List.set_eq_of_length_le hlen]
  | some cur =>
      by_cases hcv : cur = v
      · subst hcv
        simp [set_self_of_getElem store c cur h]
      · simp [hcv]

/-- The store after a batch is the pointwise last-write-wins fold of the
batch's writes: every Cell written in the batch ends at the final value
written to it. -/
theorem applyWrites_values (topo : Topology) :
    ∀ (ws : List (CellId × Val)) (store : List Val) (pend : List SubId),
      (ws.foldl
        (fun acc w =>
          let out := applyWrite topo acc.1 w.1 w.2
          (out.1, enqueue acc.2 out.2)) (store, pend)).1
        = ws.foldl (fun st w => st.set w.1 w.2) store := by
  intro ws
  induction ws with
  | nil => intro store pend; rfl
  | cons w rest ih =>
      intro store pend
      rcases w with ⟨c, v⟩
      rw [List.foldl_cons, List.foldl_cons]
      show (rest.foldl _
        ((applyWrite topo store c v).1,
          enqueue pend (applyWrite topo store c v).2)).1 = _
      rw [ih (applyWrite topo store c v).1
            (enqueue pend (applyWrite topo store c v).2),
          applyWrite_values]

/-- Shorthand for the hypothesis that no subscriber body performs writes
(pure notification consumers). -/
def NoWrites (topo : Topology) : Prop :=
  ∀ s ∈ topo.subs, ∀ st w, s.run st = .ok w → w = []

/-- Under `NoWrites`, a dispatch leaves store and pending set unchanged
and the dispatched subscriber observes exactly the current store. -/
theorem flushStep_nowrites (topo : Topology) (hnw : NoWrites topo)
    (acc : FlushAcc) (i : SubId) :
    (flushStep topo acc i).store = acc.store ∧
    (flushStep topo acc i).newPending = acc.newPending ∧
    ((flushStep topo acc i).ran = acc.ran ∨
      (flushStep topo acc i).ran = acc.ran ++ [(i, acc.store)]) := by
  cases h : topo.subs[i]? with
  | none => refine ⟨?_, ?_, Or.inl ?_⟩ <;> simp [flushStep, h]
  | some s =>
      have hs : s ∈ topo.subs := List.getElem?_mem h
      by_cases hl : s.live
      · cases hr : s.run acc.store with
        | ok ws =>
            have hw : ws = [] := hnw s hs acc.store ws hr
            subst hw
            refine ⟨?_, ?_, Or.inr ?_⟩ <;>
              simp [flushStep, h, hl, hr, applyWrites, enqueue]
        | error e =>
            refine ⟨?_, ?_, Or.inr ?_⟩ <;> simp [flushStep, h, hl, hr]
      · have hl2 : s.live = false := by simpa using hl
        refine ⟨?_, ?_, Or.inl ?_⟩ <;> simp [flushStep, h, hl2]

/-- Under `NoWrites`, a whole flush keeps the store fixed, enqueues no
new pending work, and every recorded run observed exactly the store the
flush started from. -/
theorem runFlush_nowrites (topo : Topology) (hnw : NoWrites topo) :
    ∀ (ord : List SubId) (acc : FlushAcc),
      (ord.foldl (flushStep topo) acc).store = acc.store ∧
      (ord.foldl (flushStep topo) acc).newPending = acc.newPending ∧
      ∀ p ∈ (ord.foldl (flushStep topo) acc).ran,
        p ∈ acc.ran ∨ p.2 = acc.store := by
  intro ord
  induction ord with
  | nil => intro acc; exact ⟨rfl, rfl, fun p hp => Or.inl hp⟩
  | cons i rest ih =>
      intro acc
      rw [List.foldl_cons]
      obtain ⟨hst, hnp, hran⟩ := flushStep_nowrites topo hnw acc i
      obtain ⟨ihst, ihnp, ihran⟩ := ih (flushStep topo acc i)
      refine ⟨by rw [ihst, hst], by rw [ihnp, hnp], ?_⟩
      intro p hp
      rcases ihran p hp with hin | hsnap
      · rcases hran with hcase | hcase
        · rw [hcase] at hin; exact Or.inl hin
        · rw [hcase] at hin
          rcases List.mem_append.mp hin with h1 | h1
          · exact Or.inl h1
          · rw [List.mem_singleton] at h1
            exact Or.inr (by rw [h1])
      · rw [hst] at hsnap
        exact Or.inr hsnap

/-! ### Structure of the flush order -/

/-- Two kind tags cannot both hold of one subscriber. -/
theorem isKind_not_both (topo : Topology) (i : SubId) :
    ¬(isKind topo .derived i = true ∧ isKind topo .effect i = true) := by
  unfold isKind
  cases h : topo.subs[i]? with
  | none => simp
  | some s =>
      rintro ⟨h1, h2⟩
      rw [beq_iff_eq] at h1 h2
      rw [h1] at h2
      exact SubKind.noConfusion h2

/-- The flush order never repeats a handle. -/
theorem flushOrder_nodup (topo : Topology) (queue : List SubId) :
    (flushOrder topo queue).Nodup := by
  unfold flushOrder
  refine List.Nodup.append ?_ ?_ ?_
  · exact (List.nodup_range _).filter _
  · exact (List.nodup_range _).filter _
  · intro a ha hb
    rw [List.mem_filter] at ha hb
    have h1 := ha.2
    have h2 := hb.2
    rw [Bool.and_eq_true] at h1 h2
    exact isKind_not_both topo a ⟨h1.2, h2.2⟩

/-- A handle is in the flush order exactly when it is pending and names a
registered subscriber. -/
theorem mem_flushOrder (topo : Topology) (queue : List SubId) (i : SubId) :
    i ∈ flushOrder topo queue ↔ i ∈ queue ∧ ∃ s, topo.subs[i]? = some s := by
  unfold flushOrder
  rw [List.mem_append, List.mem_filter, List.mem_filter]
  constructor
  · rintro (⟨hr, hc⟩ | ⟨hr, hc⟩) <;>
      · rw [Bool.and_eq_true, decide_eq_true_eq] at hc
        refine ⟨hc.1, ?_⟩
        have h2 := hc.2
        unfold isKind at h2
        cases h : topo.subs[i]? with
        | none => rw [h] at h2; exact Bool.noConfusion h2
        | some s => exact ⟨s, rfl⟩
  · rintro ⟨hq, s, hs⟩
    have hlen : i < topo.subs.length := by
      by_contra hc
      push_neg at hc
      rw [List.getElem?_eq_none hc] at hs
      exact Option.noConfusion hs
    have hr : i ∈ List.range topo.subs.length := List.mem_range.mpr hlen
    cases hskind : s.kind with
    | derived =>
        left
        refine ⟨hr, ?_⟩
        rw [Bool.and_eq_true, decide_eq_true_eq]
        exact ⟨hq, by unfold isKind; rw [hs]; simp [hskind]⟩
    | effect =>
        right
        refine ⟨hr, ?_⟩
        rw [Bool.and_eq_true, decide_eq_true_eq]
        exact ⟨hq, by unfold isKind; rw [hs]; simp [hskind]⟩

/-- The store after the writes of one `batch()` call. -/
def batchStore (topo : Topology) (store : List Val) (ws : List (CellId × Val)) :
    List Val :=
  (applyWrites topo store ws).1

/-- The pending set coalesced by one `batch()` call. -/
def batchQueue (topo : Topology) (store : List Val) (ws : List (CellId × Val)) :
    List SubId :=
  (applyWrites topo store ws).2

/-- The flush produced by one `batch()` call. -/
def batchFlush (topo : Topology) (store : List Val) (ws : List (CellId × Val)) :
    FlushAcc :=
  runFlush topo (batchStore topo store ws)
    (flushOrder topo (batchQueue topo store ws))

/-- C1: for every sequence of writes inside one `batch()` call (with
subscribers that perform no further writes), the batch's store is the
last-write-wins fold of the writes, every subscriber runs at most once in
the resulting flush, every pending live subscriber runs exactly once, and
every run observes exactly the final batched store — never an
intermediate value of any Cell written in the batch. -/
theorem batch_runs_once_observing_final (topo : Topology) (store : List Val)
    (ws : List (CellId × Val)) (hnw : NoWrites topo) :
    (batchStore topo store ws = ws.foldl (fun st w => st.set w.1 w.2) store) ∧
    (∀ i : SubId,
      ((batchFlush topo store ws).ran.map Prod.fst).count i ≤ 1) ∧
    (∀ (i : SubId) (s : Subscriber), topo.subs[i]? = some s → s.live = true →
      i ∈ batchQueue topo store ws →
      ((batchFlush topo store ws).ran.map Prod.fst).count i = 1) ∧
    (∀ p ∈ (batchFlush topo store ws).ran, p.2 = batchStore topo store ws) := by
  have hids : (batchFlush topo store ws).ran.map Prod.fst
      = (flushOrder topo (batchQueue topo store ws)).filter
          (fun i => isLive topo i) := by
    have h := runFlush_ran_ids topo
      (flushOrder topo (batchQueue topo store ws))
      ⟨batchStore topo store ws, [], [], []⟩
    simpa [batchFlush, runFlush] using h
  have hnodup : ((batchFlush topo store ws).ran.map Prod.fst).Nodup := by
    rw [hids]
    exact (flushOrder_nodup topo (batchQueue topo store ws)).filter _
  refine ⟨?_, ?_, ?_, ?_⟩
  · exact applyWrites_values topo ws store []
  · intro i
    exact List.nodup_iff_count_le_one.mp hnodup i
  · intro i s hs hlive hq
    apply List.count_eq_one_of_mem hnodup
    rw [hids, List.mem_filter]
    constructor
    · exact (mem_flushOrder topo (batchQueue topo store ws) i).mpr ⟨hq, s, hs⟩
    · unfold isLive
      rw [hs]
      simpa using hlive
  · intro p hp
    have h := (runFlush_nowrites topo hnw
      (flushOrder topo (batchQueue topo store ws))
      ⟨batchStore topo store ws, [], [], []⟩).2.2 p
    have h2 : p ∈ ((flushOrder topo (batchQueue topo store ws)).foldl
        (flushStep topo) ⟨batchStore topo store ws, [], [], []⟩).ran := by
      simpa [batchFlush, runFlush] using hp
    rcases h h2 with h3 | h3
    · exact absurd h3 (List.not_mem_nil p)
    · exact h3

/-- Witness for C1: two cells, a derived and an effect subscribed to cell
0; the batch `write 1; write 2; write 3` leaves cell 0 at 3, runs each
subscriber exactly once, and both observe the final store `[3, 10]`. -/
theorem batch_runs_once_observing_final_witness :
    (batchStore
        ⟨[[0, 1], []],
          [⟨.derived, true, fun _ => .ok []⟩, ⟨.effect, true, fun _ => .ok []⟩]⟩
        [0, 10] [(0, 1), (0, 2), (0, 3)] = [3, 10]) ∧
    (((batchFlush
        ⟨[[0, 1], []],
          [⟨.derived, true, fun _ => .ok []⟩, ⟨.effect, true, fun _ => .ok []⟩]⟩
        [0, 10] [(0, 1), (0, 2), (0, 3)]).ran.map Prod.fst).count 1 = 1) := by
  have h := batch_runs_once_observing_final
    ⟨[[0, 1], []],
      [⟨.derived, true, fun _ => .ok []⟩, ⟨.effect, true, fun _ => .ok []⟩]⟩
    [0, 10] [(0, 1), (0, 2), (0, 3)]
    (by
      intro s hs st w hw
      rcases List.mem_cons.mp hs with h1 | h1
      · rw [h1] at hw
        exact (Except.ok.inj hw).symm
      · rcases List.mem_cons.mp h1 with h2 | h2
        · rw [h2] at hw
          exact (Except.ok.inj hw).symm
        · exact absurd h2 (List.not_mem_nil s))
  refine ⟨by rw [h.1]; rfl, ?_⟩
  apply h.2.2.1 1 ⟨.effect, true, fun _ => .ok []⟩ rfl rfl
  rw [show batchQueue
      ⟨[[0, 1], []],
        [⟨.derived, true, fun _ => .ok []⟩, ⟨.effect, true, fun _ => .ok []⟩]⟩
      [0, 10] [(0, 1), (0, 2), (0, 3)] = [0, 1] from rfl]
  simp

/-- Kind facts about the two halves of the flush order. -/
theorem flushOrder_halves (topo : Topology) (queue : List SubId) :
    (∀ a ∈ (List.range topo.subs.length).filter
        (fun i => decide (i ∈ queue) && isKind topo .derived i),
      isKind topo .derived a = true) ∧
    (∀ a ∈ (List.range topo.subs.length).filter
        (fun i => decide (i ∈ queue) && isKind topo .effect i),
      isKind topo .effect a = true) := by
  constructor <;>
    · intro a ha
      rw [List.mem_filter, Bool.and_eq_true] at ha
      exact ha.2.2

/-- C5: within every flush, the execution order puts every affected
Derived Computation strictly before every Effect, orders each kind by
registration (ascending id), and the flush trace follows exactly that
order restricted to live subscribers — so for a given write sequence the
flush execution order is deterministic and effects only run after all
derived recomputations of the flush. -/
theorem flush_derived_before_effects (topo : Topology) (store : List Val)
    (queue : List SubId) :
    (∀ a ∈ flushOrder topo queue,
      isKind topo .derived a = true ∨ isKind topo .effect a = true) ∧
    (flushOrder topo queue).Pairwise
      (fun a b => ¬(isKind topo .effect a = true ∧ isKind topo .derived b = true)) ∧
    ((flushOrder topo queue).filter
      (fun i => isKind topo .derived i)).Pairwise (· < ·) ∧
    ((flushOrder topo queue).filter
      (fun i => isKind topo .effect i)).Pairwise (· < ·) ∧
    ((runFlush topo store (flushOrder topo queue)).ran.map Prod.fst
      = (flushOrder topo queue).filter (fun i => isLive topo i)) := by
  obtain ⟨hd, he⟩ := flushOrder_halves topo queue
  have hddis : ∀ a, isKind topo .derived a = true → isKind topo .effect a = false := by
    intro a h1
    by_contra hc
    push_neg at hc
    exact isKind_not_both topo a ⟨h1, by simpa using hc⟩
  have hedis : ∀ a, isKind topo .effect a = true → isKind topo .derived a = false := by
    intro a h1
    by_contra hc
    push_neg at hc
    exact isKind_not_both topo a ⟨by simpa using hc, h1⟩
  refine ⟨?_, ?_, ?_, ?_, ?_⟩
  · intro a ha
    rcases List.mem_append.mp ha with h1 | h1
    · exact Or.inl (hd a h1)
    · exact Or.inr (he a h1)
  · unfold flushOrder
    rw [List.pairwise_append]
    refine ⟨?_, ?_, ?_⟩
    · apply List.pairwise_of_forall_mem_list
      intro a ha b hb
      rintro ⟨h1, _⟩
      rw [hddis a (hd a ha)] at h1
      exact Bool.noConfusion h1
    · apply List.pairwise_of_forall_mem_list
      intro a ha b hb
      rintro ⟨_, h2⟩
      rw [hedis b (he b hb)] at h2
      exact Bool.noConfusion h2
    · intro a ha b hb
      rintro ⟨h1, _⟩
      rw [hddis a (hd a ha)] at h1
      exact Bool.noConfusion h1
  · unfold flushOrder
    rw [List.filter_append]
    have h1 : ((List.range topo.subs.length).filter
        (fun i => decide (i ∈ queue) && isKind topo .derived i)).filter
        (fun i => isKind topo .derived i)
        = (List.range topo.subs.length).filter
            (fun i => decide (i ∈ queue) && isKind topo .derived i) :=
      List.filter_eq_self.mpr (fun a ha => hd a ha)
    have h2 : ((List.range topo.subs.length).filter
        (fun i => decide (i ∈ queue) && isKind topo .effect i)).filter
        (fun i => isKind topo .derived i) = [] := by
      rw [List.filter_eq_nil_iff]
      intro a ha
      rw [hedis a (he a ha)]
      exact Bool.false_ne_true
    rw [h1, h2, List.append_nil]
    exact (List.pairwise_lt_range topo.subs.length).filter _
  · unfold flushOrder
    rw [List.filter_append]
    have h1 : ((List.range topo.subs.length).filter
        (fun i => decide (i ∈ queue) && isKind topo .derived i)).filter
        (fun i => isKind topo .effect i) = [] := by
      rw [List.filter_eq_nil_iff]
      intro a ha
      rw [hddis a (hd a ha)]
      exact Bool.false_ne_true
    have h2 : ((List.range topo.subs.length).filter
        (fun i => decide (i ∈ queue) && isKind topo .effect i)).filter
        (fun i => isKind topo .effect i)
        = (List.range topo.subs.length).filter
            (fun i => decide (i ∈ queue) && isKind topo .effect i) :=
      List.filter_eq_self.mpr (fun a ha => he a ha)
    rw [h1, h2, List.nil_append]
    exact (List.pairwise_lt_range topo.subs.length).filter _
  · have h := runFlush_ran_ids topo (flushOrder topo queue) ⟨store, [], [], []⟩
    simpa [runFlush] using h

/-- Witness for C5 at a concrete system: a derived (id 0) and an effect
(id 1), queued as `[1, 0]`, flush in order `[0, 1]` — derived first. -/
theorem flush_derived_before_effects_witness :
    (runFlush
      ⟨[[0, 1]],
        [⟨.derived, true, fun _ => .ok []⟩, ⟨.effect, true, fun _ => .ok []⟩]⟩
      [7]
      (flushOrder
        ⟨[[0, 1]],
          [⟨.derived, true, fun _ => .ok []⟩, ⟨.effect, true, fun _ => .ok []⟩]⟩
        [1, 0])).ran.map Prod.fst
      = (flushOrder
          ⟨[[0, 1]],
            [⟨.derived, true, fun _ => .ok []⟩,
              ⟨.effect, true, fun _ => .ok []⟩]⟩
          [1, 0]).filter
          (fun i => isLive
            ⟨[[0, 1]],
              [⟨.derived, true, fun _ => .ok []⟩,
                ⟨.effect, true, fun _ => .ok []⟩]⟩ i) :=
  (flush_derived_before_effects
    ⟨[[0, 1]],
      [⟨.derived, true, fun _ => .ok []⟩, ⟨.effect, true, fun _ => .ok []⟩]⟩
    [7] [1, 0]).2.2.2.2

/-- C8: an exception thrown by a Subscriber's body is caught at the
Scheduler boundary and reported on the error channel as
`(error, subscriberKind, subscriberId)`, and every other live queued
subscriber of the same flush still runs. -/
theorem flush_error_isolated (topo : Topology) (store : List Val)
    (ord : List SubId) (k : SubId) (s : Subscriber) (e : RunError)
    (hk : topo.subs[k]? = some s) (hlive : s.live = true)
    (hrun : ∀ st, s.run st = .error e) (hmem : k ∈ ord) :
    ((e, s.kind, k) ∈ (runFlush topo store ord).errors) ∧
    (∀ j ∈ ord, isLive topo j = true →
      j ∈ (runFlush topo store ord).ran.map Prod.fst) := by
  constructor
  · exact runFlush_reports topo k s e hk hlive hrun ord ⟨store, [], [], []⟩ hmem
  · intro j hj hlj
    have h : (runFlush topo store ord).ran.map Prod.fst
        = ord.filter (fun i => isLive topo i) := by
      have h2 := runFlush_ran_ids topo ord ⟨store, [], [], []⟩
      simpa [runFlush] using h2
    rw [h, List.mem_filter]
    exact ⟨hj, by simpa using hlj⟩

/-- Witness for C8: subscriber 0 always throws `userExn 7`; in the flush
of `[0, 1]` the error is reported with its kind and id, and subscriber 1
still runs. -/
theorem flush_error_isolated_witness :
    ((RunError.userExn 7, SubKind.effect, 0) ∈
      (runFlush
        ⟨[[0, 1]],
          [⟨.effect, true, fun _ => .error (.userExn 7)⟩,
            ⟨.effect, true, fun _ => .ok []⟩]⟩
        [5] [0, 1]).errors) ∧
    (1 ∈ (runFlush
        ⟨[[0, 1]],
          [⟨.effect, true, fun _ => .error (.userExn 7)⟩,
            ⟨.effect, true, fun _ => .ok []⟩]⟩
        [5] [0, 1]).ran.map Prod.fst) := by
  have h := flush_error_isolated
    ⟨[[0, 1]],
      [⟨.effect, true, fun _ => .error (.userExn 7)⟩,
        ⟨.effect, true, fun _ => .ok []⟩]⟩
    [5] [0, 1] 0 ⟨.effect, true, fun _ => .error (.userExn 7)⟩
    (.userExn 7) rfl rfl (fun _ => rfl) (by simp)
  exact ⟨h.1, h.2 1 (by simp) rfl⟩

/-! ### Re-entrancy: writes during a flush (spec §4.5, C9) -/

/-- A single write preserves the store's length. -/
theorem applyWrite_length (topo : Topology) (store : List Val) (c : CellId)
    (v : Val) : (applyWrite topo store c v).1.length = store.length := by
  rw [applyWrite_values]
  exact List.length_set store c v

/-- A batch of writes preserves the store's length. -/
theorem applyWrites_length (topo : Topology) :
    ∀ (ws : List (CellId × Val)) (store : List Val) (pend : List SubId),
      (ws.foldl
        (fun acc w =>
          let out := applyWrite topo acc.1 w.1 w.2
          (out.1, enqueue acc.2 out.2)) (store, pend)).1.length
        = store.length := by
  intro ws
  induction ws with
  | nil => intro store pend; rfl
  | cons w rest ih =>
      intro store pend
      rcases w with ⟨c, v⟩
      rw [List.foldl_cons]
      show (rest.foldl _
        ((applyWrite topo store c v).1,
          enqueue pend (applyWrite topo store c v).2)).1.length = _
      rw [ih (applyWrite topo store c v).1
            (enqueue pend (applyWrite topo store c v).2),
          applyWrite_length]

/-- Dispatch preserves the store's length. -/
theorem flushStep_store_length (topo : Topology) (acc : FlushAcc) (i : SubId) :
    (flushStep topo acc i).store.length = acc.store.length := by
  cases h : topo.subs[i]? with
  | none => simp [flushStep, h]
  | some s =>
      by_cases hl : s.live
      · cases hr : s.run acc.store with
        | ok ws =>
            have := applyWrites_length topo ws acc.store []
            simpa [flushStep, h, hl, hr, applyWrites] using this
        | error e => simp [flushStep, h, hl, hr]
      · have hl2 : s.live = false := by simpa using hl
        simp [flushStep, h, hl2]

/-- Handles already pending for the next phase stay pending through
further dispatches. -/
theorem flushStep_newPending_mono (topo : Topology) (acc : FlushAcc)
    (i : SubId) (k : SubId) (hmem : k ∈ acc.newPending) :
    k ∈ (flushStep topo acc i).newPending := by
  cases h : topo.subs[i]? with
  | none => simpa [flushStep, h] using hmem
  | some s =>
      by_cases hl : s.live
      · cases hr : s.run acc.store with
        | ok ws =>
            have hstep : (flushStep topo acc i).newPending
                = enqueue acc.newPending (applyWrites topo acc.store ws).2 := by
              simp [flushStep, h, hl, hr]
            rw [hstep]
            exact (mem_enqueue _ _ k).mpr (Or.inl hmem)
        | error e => simpa [flushStep, h, hl, hr] using hmem
      · have hl2 : s.live = false := by simpa using hl
        simpa [flushStep, h, hl2] using hmem

/-- A runaway subscriber `k` — live, subscribed to the very cell it
always writes with a fresh value — is re-enqueued for the next Batching
phase by any flush that dispatches it (and the store length is
preserved). -/
theorem runFlush_cascade (topo : Topology) (k : SubId) (c : CellId)
    (s : Subscriber) (L : Nat)
    (hk : topo.subs[k]? = some s) (hlive : s.live = true)
    (hcL : c < L) (hmem : k ∈ topo.cellSubs.getD c [])
    (hrun : ∀ st : List Val, st.length = L →
      ∃ v, s.run st = .ok [(c, v)] ∧ st[c]? ≠ some v) :
    ∀ (ord : List SubId) (acc : FlushAcc), acc.store.length = L →
      (k ∈ ord ∨ k ∈ acc.newPending) →
      k ∈ (ord.foldl (flushStep topo) acc).newPending ∧
      (ord.foldl (flushStep topo) acc).store.length = L := by
  intro ord
  induction ord with
  | nil =>
      intro acc hL hcase
      rcases hcase with h | h
      · exact absurd h (List.not_mem_nil k)
      · exact ⟨h, hL⟩
  | cons j rest ih =>
      intro acc hL hcase
      rw [List.foldl_cons]
      have hlen2 : (flushStep topo acc j).store.length = L := by
        rw [flushStep_store_length]; exact hL
      rcases hcase with hord | hpend
      · rcases List.mem_cons.mp hord with heq | htl
        · subst heq
          refine ih (flushStep topo acc k) hlen2 (Or.inr ?_)
          obtain ⟨v, hv, hne⟩ := hrun acc.store hL
          obtain ⟨cur, hcc, hcv⟩ :
              ∃ cur, acc.store[c]? = some cur ∧ cur ≠ v := by
            cases hcc : acc.store[c]? with
            | none =>
                exfalso
                have hle : acc.store.length ≤ c := by
                  by_contra hc2
                  push_neg at hc2
                  rw [List.getElem?_eq_getElem hc2] at hcc
                  exact Option.noConfusion hcc
                exact absurd hcL (Nat.not_lt.mpr (hL ▸ hle))
            | some cur =>
                refine ⟨cur, rfl, ?_⟩
                intro hcv
                exact hne (by rw [hcc, hcv])
          have hstep : (flushStep topo acc k).newPending
              = enqueue acc.newPending (enqueue [] (topo.cellSubs.getD c [])) := by
            simp [flushStep, hk, hlive, hv, applyWrites, applyWrite, hcc, hcv]
          rw [hstep]
          exact (mem_enqueue _ _ k).mpr
            (Or.inr ((mem_enqueue _ _ k).mpr (Or.inr hmem)))
        · exact ih (flushStep topo acc j) hlen2 (Or.inl htl)
      · exact ih (flushStep topo acc j) hlen2
          (Or.inr (flushStep_newPending_mono topo acc j k hpend))

/-- With an empty pending set the flush loop ends Idle without a fatal
error, at every depth. -/
theorem flushLoop_nil_fatal (topo : Topology) (limit : Nat) (store : List Val) :
    (flushLoop topo limit store []).fatal = false := by
  cases limit <;> simp [flushLoop]

/-- C9: no subscriber that was not queued before the flush began runs in
that flush (writes during Flushing only feed the next Batching phase);
a runaway cascade — a live subscriber subscribed to the very cell it
always changes — ends with the fatal re-entrancy flag at every depth
bound, so flushing always terminates instead of recursing forever; and
when no subscriber writes during flushing the loop always ends Idle
without the fatal error. -/
theorem writes_during_flush_deferred (topo : Topology) (k : SubId)
    (c : CellId) (s : Subscriber) (L : Nat)
    (hk : topo.subs[k]? = some s) (hlive : s.live = true)
    (hcL : c < L) (hmem : k ∈ topo.cellSubs.getD c [])
    (hrun : ∀ st : List Val, st.length = L →
      ∃ v, s.run st = .ok [(c, v)] ∧ st[c]? ≠ some v) :
    (∀ (store : List Val) (ord : List SubId),
      ∀ p ∈ (runFlush topo store ord).ran, p.1 ∈ ord) ∧
    (∀ (limit : Nat) (store : List Val) (queue : List SubId),
      store.length = L → k ∈ queue →
      (flushLoop topo limit store queue).fatal = true) ∧
    (∀ topo2 : Topology, NoWrites topo2 →
      ∀ (limit : Nat) (store : List Val) (queue : List SubId),
        (flushLoop topo2 (limit + 1) store queue).fatal = false) := by
  refine ⟨?_, ?_, ?_⟩
  · intro store ord p hp
    have hids : (runFlush topo store ord).ran.map Prod.fst
        = ord.filter (fun i => isLive topo i) := by
      have h := runFlush_ran_ids topo ord ⟨store, [], [], []⟩
      simpa [runFlush] using h
    have hmem2 : p.1 ∈ (runFlush topo store ord).ran.map Prod.fst :=
      List.mem_map_of_mem Prod.fst hp
    rw [hids] at hmem2
    exact (List.mem_filter.mp hmem2).1
  · intro limit
    induction limit with
    | zero =>
        intro store queue hL hkq
        have hne : queue.isEmpty = false := by
          cases queue with
          | nil => exact absurd hkq (List.not_mem_nil k)
          | cons a t => rfl
        simp [flushLoop, hne]
    | succ n ihn =>
        intro store queue hL hkq
        have hne : queue.isEmpty = false := by
          cases queue with
          | nil => exact absurd hkq (List.not_mem_nil k)
          | cons a t => rfl
        have hord : k ∈ flushOrder topo queue :=
          (mem_flushOrder topo queue k).mpr ⟨hkq, s, hk⟩
        have hc := runFlush_cascade topo k c s L hk hlive hcL hmem hrun
          (flushOrder topo queue) ⟨store, [], [], []⟩ hL (Or.inl hord)
        simp only [flushLoop, hne, Bool.false_eq_true, if_false]
        exact ihn _ _ hc.2 hc.1
  · intro topo2 hnw limit store queue
    by_cases hq : queue.isEmpty
    · simp [flushLoop, hq]
    · have hq2 : queue.isEmpty = false := by simpa using hq
      have hnp : (runFlush topo2 store (flushOrder topo2 queue)).newPending
          = [] := by
        have h := (runFlush_nowrites topo2 hnw (flushOrder topo2 queue)
          ⟨store, [], [], []⟩).2.1
        simpa [runFlush] using h
      simp only [flushLoop, hq2, Bool.false_eq_true, if_false]
      rw [hnp]
      exact flushLoop_nil_fatal topo2 limit _

/-- Witness for C9: a single live effect subscribed to cell 0 that always
increments it; with depth bound 3 the flush loop ends with the fatal
re-entrancy flag. -/
theorem writes_during_flush_deferred_witness :
    (flushLoop
      ⟨[[0]], [⟨.effect, true, fun st => .ok [(0, st.getD 0 0 + 1)]⟩]⟩
      3 [0] [0]).fatal = true := by
  have h := writes_during_flush_deferred
    ⟨[[0]], [⟨.effect, true, fun st => .ok [(0, st.getD 0 0 + 1)]⟩]⟩
    0 0 ⟨.effect, true, fun st => .ok [(0, st.getD 0 0 + 1)]⟩ 1
    rfl rfl (by decide) (by decide)
    (by
      intro st hst
      cases st with
      | nil => simp at hst
      | cons a t =>
          cases t with
          | nil => exact ⟨a + 1, rfl, by simp⟩
          | cons b t2 => simp at hst)
  exact h.2.1 3 [0] [0] rfl (by simp)

/-! ### Reachability of subscriber handles (C10) -/

/-- Membership in the concatenation of all cells' subscription lists. -/
theorem mem_joinSubs (topo : Topology) (j : SubId) :
    j ∈ joinSubs topo ↔ ∃ l ∈ topo.cellSubs, j ∈ l := by
  show j ∈ topo.cellSubs.foldr (fun l acc => l ++ acc) [] ↔ _
  induction topo.cellSubs with
  | nil => simp
  | cons l rest ih => simp [ih]

/-- A cell's subscription list is contained in the join of all of them. -/
theorem getD_sub_joinSubs (topo : Topology) (c : CellId) (j : SubId)
    (h : j ∈ topo.cellSubs.getD c []) : j ∈ joinSubs topo := by
  rw [List.getD_eq_getElem?_getD] at h
  cases hc : topo.cellSubs[c]? with
  | none => rw [hc] at h; exact absurd h (List.not_mem_nil j)
  | some l =>
      rw [hc] at h
      exact (mem_joinSubs topo j).mpr ⟨l, List.getElem?_mem hc, h⟩

/-- A write can only enqueue handles from the written cell's list. -/
theorem applyWrite_pending_sub (topo : Topology) (store : List Val)
    (c : CellId) (v : Val) (j : SubId)
    (h : j ∈ (applyWrite topo store c v).2) : j ∈ joinSubs topo := by
  apply getD_sub_joinSubs topo c j
  cases hc : store[c]? with
  | none => simp [applyWrite, hc] at h
  | some cur =>
      by_cases hcv : cur = v
      · simp [applyWrite, hc, hcv] at h
      · simpa [applyWrite, hc, hcv] using h

/-- A batch can only enqueue handles subscribed to some cell. -/
theorem applyWrites_pending_sub (topo : Topology) :
    ∀ (ws : List (CellId × Val)) (store : List Val) (pend : List SubId)
      (j : SubId),
      j ∈ (ws.foldl
        (fun acc w =>
          let out := applyWrite topo acc.1 w.1 w.2
          (out.1, enqueue acc.2 out.2)) (store, pend)).2 →
      j ∈ pend ∨ j ∈ joinSubs topo := by
  intro ws
  induction ws with
  | nil => intro store pend j h; exact Or.inl h
  | cons w rest ih =>
      intro store pend j h
      rw [List.foldl_cons] at h
      have h2 := ih (applyWrite topo store w.1 w.2).1
        (enqueue pend (applyWrite topo store w.1 w.2).2) j h
      rcases h2 with h3 | h3
      · rcases (mem_enqueue _ _ j).mp h3 with h4 | h4
        · exact Or.inl h4
        · exact Or.inr (applyWrite_pending_sub topo store w.1 w.2 j h4)
      · exact Or.inr h3

/-- Writes made during a flush only enqueue subscribed handles (beyond
what was already pending for the next phase). -/
theorem runFlush_newPending_sub (topo : Topology) :
    ∀ (ord : List SubId) (acc : FlushAcc) (j : SubId),
      j ∈ (ord.foldl (flushStep topo) acc).newPending →
      j ∈ acc.newPending ∨ j ∈ joinSubs topo := by
  intro ord
  induction ord with
  | nil => intro acc j h; exact Or.inl h
  | cons i rest ih =>
      intro acc j h
      rw [List.foldl_cons] at h
      rcases ih (flushStep topo acc i) j h with h2 | h2
      · cases hs : topo.subs[i]? with
        | none =>
            simp only [flushStep, hs] at h2
            exact Or.inl h2
        | some s =>
            by_cases hl : s.live
            · cases hr : s.run acc.store with
              | ok ws =>
                  have hstep : (flushStep topo acc i).newPending
                      = enqueue acc.newPending
                          (applyWrites topo acc.store ws).2 := by
                    simp [flushStep, hs, hl, hr]
                  rw [hstep] at h2
                  rcases (mem_enqueue _ _ j).mp h2 with h3 | h3
                  · exact Or.inl h3
                  · rcases applyWrites_pending_sub topo ws acc.store [] j h3
                      with h4 | h4
                    · exact absurd h4 (List.not_mem_nil j)
                    · exact Or.inr h4
              | error e =>
                  simp only [flushStep, hs, hl, hr] at h2
                  exact Or.inl h2
            · have hl2 : s.live = false := by simpa using hl
              simp only [flushStep, hs, hl2] at h2
              exact Or.inl h2
      · exact Or.inr h2

/-- Every run of a flush loop was either pending at the start or is
subscribed to some cell. -/
theorem flushLoop_ran_sub (topo : Topology) :
    ∀ (limit : Nat) (store : List Val) (queue : List SubId) (j : SubId),
      j ∈ (flushLoop topo limit store queue).ran.map Prod.fst →
      j ∈ queue ∨ j ∈ joinSubs topo := by
  intro limit
  induction limit with
  | zero =>
      intro store queue j h
      by_cases hq : queue.isEmpty <;> simp [flushLoop, hq] at h
  | succ n ih =>
      intro store queue j h
      by_cases hq : queue.isEmpty
      · simp [flushLoop, hq] at h
      · have hq2 : queue.isEmpty = false := by simpa using hq
        simp only [flushLoop, hq2, Bool.false_eq_true, if_false,
          List.map_append, List.mem_append] at h
        rcases h with h1 | h1
        · have hids : (runFlush topo store (flushOrder topo queue)).ran.map
              Prod.fst = (flushOrder topo queue).filter
                (fun i => isLive topo i) := by
            have h2 := runFlush_ran_ids topo (flushOrder topo queue)
              ⟨store, [], [], []⟩
            simpa [runFlush] using h2
          rw [hids] at h1
          have h3 := (List.mem_filter.mp h1).1
          exact Or.inl ((mem_flushOrder topo queue j).mp h3).1
        · rcases ih _ _ j h1 with h2 | h2
          · rcases runFlush_newPending_sub topo (flushOrder topo queue)
              ⟨store, [], [], []⟩ j (by simpa [runFlush] using h2)
              with h3 | h3
            · exact absurd h3 (List.not_mem_nil j)
            · exact Or.inr h3
          · exact Or.inr h2

/-- Every run recorded across a sequence of batches is subscribed to some
cell (beyond runs already in the accumulated trace). -/
theorem processBatches_ran_sub (topo : Topology) (limit : Nat) :
    ∀ (batches : List (List (CellId × Val))) (store : List Val)
      (tr : List (SubId × List Val)) (j : SubId),
      j ∈ ((batches.foldl
        (fun acc ws =>
          let lo := runBatchFlush topo limit acc.1 ws
          (lo.store, acc.2 ++ lo.ran)) (store, tr)).2.map Prod.fst) →
      j ∈ tr.map Prod.fst ∨ j ∈ joinSubs topo := by
  intro batches
  induction batches with
  | nil => intro store tr j h; exact Or.inl h
  | cons ws rest ih =>
      intro store tr j h
      rw [List.foldl_cons] at h
      have h2 := ih (runBatchFlush topo limit store ws).store
        (tr ++ (runBatchFlush topo limit store ws).ran) j h
      rcases h2 with h3 | h3
      · rw [List.map_append, List.mem_append] at h3
        rcases h3 with h4 | h4
        · exact Or.inl h4
        · have h5 := flushLoop_ran_sub topo limit
            (applyWrites topo store ws).1 (applyWrites topo store ws).2 j
            (by simpa [runBatchFlush] using h4)
          rcases h5 with h6 | h6
          · rcases applyWrites_pending_sub topo ws store [] j h6 with h7 | h7
            · exact absurd h7 (List.not_mem_nil j)
            · exact Or.inr h7
          · exact Or.inr h6
      · exact Or.inr h3

/-- C10: an Effect registered with an explicit empty dependency list runs
exactly once — the registration trace records its single initial run, and
across any later sequence of batches writing any Cells (including ones
its body reads) it never appears in a flush trace again. -/
theorem effect_empty_deps_runs_once (topo : Topology) (limit limit2 : Nat)
    (store : List Val)
    (body : List Val → Except RunError (List (CellId × Val)))
    (batches : List (List (CellId × Val)))
    (hwf : ∀ j ∈ joinSubs topo, j < topo.subs.length) :
    (((registerEffect topo limit store body []).2.2.2.map Prod.fst).count
        (registerEffect topo limit store body []).2.1 = 1) ∧
    (((processBatches (registerEffect topo limit store body []).1 limit2
        (registerEffect topo limit store body []).2.2.1 batches).2.map
        Prod.fst).count (registerEffect topo limit store body []).2.1 = 0) := by
  have hni : topo.subs.length ∉ joinSubs topo := by
    intro hmem
    exact absurd (hwf _ hmem) (lt_irrefl _)
  have hnotran : ∀ (lim : Nat) (st : List Val)
      (ws : List (CellId × Val)),
      topo.subs.length ∉
        (runBatchFlush ⟨topo.cellSubs, topo.subs ++ [⟨.effect, true, body⟩]⟩
          lim st ws).ran.map Prod.fst := by
    intro lim st ws hmem
    have h := flushLoop_ran_sub
      ⟨topo.cellSubs, topo.subs ++ [⟨.effect, true, body⟩]⟩ lim
      (applyWrites ⟨topo.cellSubs, topo.subs ++ [⟨.effect, true, body⟩]⟩ st ws).1
      (applyWrites ⟨topo.cellSubs, topo.subs ++ [⟨.effect, true, body⟩]⟩ st ws).2
      topo.subs.length (by simpa [runBatchFlush] using hmem)
    rcases h with h1 | h1
    · rcases applyWrites_pending_sub
        ⟨topo.cellSubs, topo.subs ++ [⟨.effect, true, body⟩]⟩ ws st []
        topo.subs.length h1 with h2 | h2
      · exact absurd h2 (List.not_mem_nil _)
      · exact hni h2
    · exact hni h1
  constructor
  · show (((topo.subs.length, store) ::
        (runBatchFlush ⟨topo.cellSubs, topo.subs ++ [⟨.effect, true, body⟩]⟩
          limit store
          (match body store with | .ok ws => ws | .error _ => [])).ran).map
        Prod.fst).count topo.subs.length = 1
    rw [List.map_cons, List.count_cons_self,
      List.count_eq_zero.mpr (hnotran limit store _)]
  · show ((processBatches
        ⟨topo.cellSubs, topo.subs ++ [⟨.effect, true, body⟩]⟩ limit2
        (runBatchFlush ⟨topo.cellSubs, topo.subs ++ [⟨.effect, true, body⟩]⟩
          limit store
          (match body store with | .ok ws => ws | .error _ => [])).store
        batches).2.map Prod.fst).count topo.subs.length = 0
    apply List.count_eq_zero.mpr
    intro hmem
    have h := processBatches_ran_sub
      ⟨topo.cellSubs, topo.subs ++ [⟨.effect, true, body⟩]⟩ limit2 batches
      (runBatchFlush ⟨topo.cellSubs, topo.subs ++ [⟨.effect, true, body⟩]⟩
        limit store
        (match body store with | .ok ws => ws | .error _ => [])).store
      [] topo.subs.length (by simpa [processBatches] using hmem)
    rcases h with h1 | h1
    · exact absurd h1 (by simp)
    · exact hni h1

/-- Witness for C10: register an effect with deps `[]` next to one
derived subscriber of cell 0, then batch a write to cell 0 — the effect's
trace count is 1 at registration and 0 across the batches. -/
theorem effect_empty_deps_runs_once_witness :
    (((registerEffect ⟨[[0]], [⟨.derived, true, fun _ => .ok []⟩]⟩ 2 [1]
        (fun _ => .ok []) []).2.2.2.map Prod.fst).count
        (registerEffect ⟨[[0]], [⟨.derived, true, fun _ => .ok []⟩]⟩ 2 [1]
          (fun _ => .ok []) []).2.1 = 1) ∧
    (((processBatches
        (registerEffect ⟨[[0]], [⟨.derived, true, fun _ => .ok []⟩]⟩ 2 [1]
          (fun _ => .ok []) []).1 2
        (registerEffect ⟨[[0]], [⟨.derived, true, fun _ => .ok []⟩]⟩ 2 [1]
          (fun _ => .ok []) []).2.2.1 [[(0, 5)]]).2.map Prod.fst).count
        (registerEffect ⟨[[0]], [⟨.derived, true, fun _ => .ok []⟩]⟩ 2 [1]
          (fun _ => .ok []) []).2.1 = 0) :=
  effect_empty_deps_runs_once ⟨[[0]], [⟨.derived, true, fun _ => .ok []⟩]⟩
    2 2 [1] (fun _ => .ok []) [[(0, 5)]] (by decide)

/-! ## Derived Computation evaluation and cycle detection (spec §4.3, C4) -/

/-- Modelled from the spec: the body of a Derived Computation as a small
expression language of reactive reads — constants, Cell reads, reads of
other Derived Computations, and addition as a representative pure
combinator (the repository ships no implementation of compute bodies). -/
inductive DExpr where
  | const (n : Val)
  | readCell (c : CellId)
  | readDerived (d : Nat)
  | add (a b : DExpr)
deriving DecidableEq, Repr

/-- Structural size of a compute body. -/
def esize : DExpr → Nat
  | .const _ => 1
  | .readCell _ => 1
  | .readDerived _ => 1
  | .add a b => esize a + esize b + 1

/-- The largest body size in a derived table. -/
def maxSize (tbl : List DExpr) : Nat :=
  tbl.foldr (fun e m => max (esize e) m) 0

/-- How many derived ids of the table are not currently under
evaluation. -/
def unvisited (tbl : List DExpr) (active : List Nat) : Nat :=
  ((Finset.range tbl.length).filter fun i => i ∉ active).card

/-- Modelled from the spec: evaluation of a Derived Computation with the
re-entrancy guard of §4.3 — `active` is the stack of derived ids
currently being evaluated, and re-entering one of them raises
`CyclicDependency` carrying the cycle members instead of recursing.  The
fuel argument makes the interpreter total; adequacy below shows the
guard bounds the recursion, so sufficient fuel never runs out. -/
def evalE (tbl : List DExpr) (store : List Val) :
    Nat → List Nat → DExpr → Except RunError Val
  | 0, _, _ => .error .outOfFuel
  | fuel + 1, active, e =>
      match e with
      | .const n => .ok n
      | .readCell c => .ok (store.getD c 0)
      | .add a b =>
          match evalE tbl store fuel active a with
          | .error e1 => .error e1
          | .ok va =>
              match evalE tbl store fuel active b with
              | .error e2 => .error e2
              | .ok vb => .ok (va + vb)
      | .readDerived d =>
          if d ∈ active then .error (.cyclicDependency (d :: active))
          else
            match tbl[d]? with
            | none => .error .unknownDerived
            | some bodyE => evalE tbl store fuel (d :: active) bodyE

/-- Body sizes are positive. -/
theorem esize_pos (e : DExpr) : 1 ≤ esize e := by
  cases e <;> simp [esize]

/-- Every body in the table is bounded by the table's max size. -/
theorem esize_le_maxSize : ∀ (tbl : List DExpr) (e : DExpr), e ∈ tbl →
    esize e ≤ maxSize tbl := by
  intro tbl
  induction tbl with
  | nil => intro e h; exact absurd h (List.not_mem_nil e)
  | cons x rest ih =>
      intro e h
      rcases List.mem_cons.mp h with h1 | h1
      · subst h1; exact le_max_left _ _
      · exact le_trans (ih e h1) (le_max_right _ _)

/-- Descending into a fresh valid derived id strictly shrinks the
unvisited count. -/
theorem unvisited_cons (tbl : List DExpr) (active : List Nat) (d : Nat)
    (hd : d < tbl.length) (hmem : d ∉ active) :
    unvisited tbl (d :: active) + 1 ≤ unvisited tbl active := by
  apply Nat.succ_le_of_lt
  apply Finset.card_lt_card
  rw [Finset.ssubset_def]
  constructor
  · intro x hx
    rw [Finset.mem_filter] at hx ⊢
    refine ⟨hx.1, ?_⟩
    intro hxa
    exact hx.2 (List.mem_cons_of_mem d hxa)
  · intro hsub
    have hd2 : d ∈ (Finset.range tbl.length).filter (fun i => i ∉ active) :=
      Finset.mem_filter.mpr ⟨Finset.mem_range.mpr hd, hmem⟩
    have h3 := hsub hd2
    rw [Finset.mem_filter] at h3
    exact h3.2 (List.mem_cons_self d active)

/-- Adequacy of the cycle guard: with fuel at least
`esize e + unvisited · (maxSize + 1)` the evaluator never exhausts its
fuel — the guard bounds the recursion, so evaluation terminates. -/
theorem evalE_adequate (tbl : List DExpr) (store : List Val) :
    ∀ (fuel : Nat) (active : List Nat) (e : DExpr),
      esize e + unvisited tbl active * (maxSize tbl + 1) ≤ fuel →
      evalE tbl store fuel active e ≠ .error .outOfFuel := by
  intro fuel
  induction fuel with
  | zero =>
      intro active e h
      exfalso
      have := esize_pos e
      omega
  | succ f ih =>
      intro active e h
      cases e with
      | const n => simp [evalE]
      | readCell c => simp [evalE]
      | add a b =>
          have ha : esize a + unvisited tbl active * (maxSize tbl + 1) ≤ f := by
            have hs := esize_pos b
            simp only [esize] at h
            omega
          have hb : esize b + unvisited tbl active * (maxSize tbl + 1) ≤ f := by
            have hs := esize_pos a
            simp only [esize] at h
            omega
          simp only [evalE]
          cases hra : evalE tbl store f active a with
          | error e1 =>
              intro hcontra
              apply ih active a ha
              rw [hra]
              simpa using hcontra
          | ok va =>
              cases hrb : evalE tbl store f active b with
              | error e2 =>
                  intro hcontra
                  apply ih active b hb
                  rw [hrb]
                  simpa using hcontra
              | ok vb => simp
      | readDerived d =>
          by_cases hdactive : d ∈ active
          · simp [evalE, hdactive]
          · cases htbl : tbl[d]? with
            | none => simp [evalE, hdactive, htbl]
            | some bodyE =>
                have hdlen : d < tbl.length := by
                  by_contra hc
                  push_neg at hc
                  rw [List.getElem?_eq_none hc] at htbl
                  exact Option.noConfusion htbl
                have hsz : esize bodyE ≤ maxSize tbl :=
                  esize_le_maxSize tbl bodyE (List.getElem?_mem htbl)
                have huv := unvisited_cons tbl active d hdlen hdactive
                have hbody : esize bodyE
                    + unvisited tbl (d :: active) * (maxSize tbl + 1) ≤ f := by
                  have h1 : 1 + unvisited tbl active * (maxSize tbl + 1)
                      ≤ f + 1 := by
                    simpa [esize] using h
                  have h2 : (unvisited tbl (d :: active) + 1) * (maxSize tbl + 1)
                      ≤ unvisited tbl active * (maxSize tbl + 1) :=
                    Nat.mul_le_mul_right _ huv
                  have h3 : (unvisited tbl (d :: active) + 1) * (maxSize tbl + 1)
                      = unvisited tbl (d :: active) * (maxSize tbl + 1)
                        + (maxSize tbl + 1) := by ring
                  omega
                have hred : evalE tbl store (f + 1) active (.readDerived d)
                    = evalE tbl store f (d :: active) bodyE := by
                  simp [evalE, hdactive, htbl]
                rw [hred]
                exact ih (d :: active) bodyE hbody

/-- C4: re-entering a Derived Computation already under evaluation
(directly or through any chain) makes the evaluator return the
`CyclicDependency` error naming the cycle members, synchronously, instead
of recursing; with adequate fuel evaluation never exhausts (the guard
bounds recursion, so it terminates rather than looping); and at the
scheduler boundary a derived whose computation fails with
`CyclicDependency` is reported while every other live queued subscriber
of the same flush still runs. -/
theorem cyclic_dependency_fatal (tbl : List DExpr) (store : List Val)
    (topo : Topology) :
    (∀ (fuel : Nat) (active : List Nat) (d : Nat), d ∈ active →
      evalE tbl store (fuel + 1) active (.readDerived d)
        = .error (.cyclicDependency (d :: active))) ∧
    (∀ (fuel : Nat) (active : List Nat) (e : DExpr),
      esize e + unvisited tbl active * (maxSize tbl + 1) ≤ fuel →
      evalE tbl store fuel active e ≠ .error .outOfFuel) ∧
    (∀ (storeF : List Val) (ord : List SubId) (k : SubId) (s : Subscriber)
      (cyc : List Nat),
      topo.subs[k]? = some s → s.live = true →
      (∀ st, s.run st = .error (.cyclicDependency cyc)) → k ∈ ord →
      ((RunError.cyclicDependency cyc, s.kind, k)
          ∈ (runFlush topo storeF ord).errors ∧
        ∀ j ∈ ord, isLive topo j = true →
          j ∈ (runFlush topo storeF ord).ran.map Prod.fst)) := by
  refine ⟨?_, evalE_adequate tbl store, ?_⟩
  · intro fuel active d hd
    simp [evalE, hd]
  · intro storeF ord k s cyc hk hlive hrun hmem
    constructor
    · exact runFlush_reports topo k s _ hk hlive hrun ord
        ⟨storeF, [], [], []⟩ hmem
    · intro j hj hlj
      have hids : (runFlush topo storeF ord).ran.map Prod.fst
          = ord.filter (fun i => isLive topo i) := by
        have h2 := runFlush_ran_ids topo ord ⟨storeF, [], [], []⟩
        simpa [runFlush] using h2
      rw [hids, List.mem_filter]
      exact ⟨hj, by simpa using hlj⟩

/-- Witness for C4: the two-element cycle `d0 reads d1, d1 reads d0` —
re-entering d0 yields `CyclicDependency [0, 1, 0]`, and with adequate
fuel evaluation from an empty stack does not exhaust its fuel. -/
theorem cyclic_dependency_fatal_witness :
    (evalE [.readDerived 1, .readDerived 0] [] 4 [1, 0] (.readDerived 0)
      = .error (.cyclicDependency [0, 1, 0])) ∧
    (evalE [.readDerived 1, .readDerived 0] [] 9 [] (.readDerived 0)
      ≠ .error .outOfFuel) :=
  ⟨(cyclic_dependency_fatal [.readDerived 1, .readDerived 0] [] ⟨[], []⟩).1
      3 [1, 0] 0 (by decide),
    (cyclic_dependency_fatal [.readDerived 1, .readDerived 0] [] ⟨[], []⟩).2.1
      9 [] (.readDerived 0) (by decide)⟩

/-! ## Effect cleanup protocol (spec §3 "Effect", §4.4, C7)

Modelled from the spec: each Effect run may return a cleanup; the
previous run's cleanup must complete before the next run's side effects
begin, and the pending cleanup runs exactly once at scope teardown, on
every exit path, including after a run that threw.  Runs are numbered by
generation; the trace of observable events makes the ordering provable. -/

/-- An observable event of the effect protocol: the cleanup returned by
run `gen` executing, or the body of run `gen` starting. -/
inductive CEvent where
  | cleanupRun (gen : Nat)
  | bodyStart (gen : Nat)
deriving DecidableEq, Repr

/-- Modelled from the spec: the bookkeeping of one Effect — the number of
the next run, the generation whose cleanup is pending (the previous run's
returned cleanup, if any), and the liveness flag after teardown. -/
structure EffState where
  nextGen : Nat
  pending : Option Nat
  dead : Bool
deriving DecidableEq, Repr

/-- The operations driving an Effect: a re-run triggered by a dependency
change (whose body may throw, and may return a new cleanup), and scope
teardown. -/
inductive EffOp where
  | rerun (thrown : Bool) (returnsCleanup : Bool)
  | teardown
deriving DecidableEq, Repr

/-- Events emitted by running a pending cleanup. -/
def cleanupEvents : Option Nat → List CEvent
  | none => []
  | some g => [.cleanupRun g]

/-- Modelled from the spec: one protocol step.  A re-run first executes
the previous run's cleanup (if any), then starts the new body; a body
that throws returns no cleanup.  Teardown runs the pending cleanup
exactly once and marks the effect dead; operations on a dead effect are
no-ops (delivery to dead subscribers is a no-op). -/
def effStep (s : EffState) : EffOp → EffState × List CEvent
  | .rerun thrown returnsCleanup =>
      if s.dead then (s, [])
      else
        ({ nextGen := s.nextGen + 1
           pending :=
             if thrown then none
             else if returnsCleanup then some s.nextGen else none
           dead := false },
          cleanupEvents s.pending ++ [.bodyStart s.nextGen])
  | .teardown =>
      if s.dead then (s, [])
      else ({ s with pending := none, dead := true }, cleanupEvents s.pending)

/-- Modelled from the spec: running a sequence of operations from the
freshly created effect, concatenating the emitted events. -/
def effRun (ops : List EffOp) : EffState × List CEvent :=
  ops.foldl
    (fun acc op =>
      let out := effStep acc.1 op
      (out.1, acc.2 ++ out.2))
    (⟨0, none, false⟩, [])

/-- The inductive invariant of the cleanup protocol: each cleanup ran at
most once; a pending cleanup has not run yet, belongs to the latest run,
and the effect is alive; all event generations are below `nextGen`; and
every executed cleanup precedes every later run's body start. -/
structure EffInv (s : EffState) (tr : List CEvent) : Prop where
  count_le : ∀ g, tr.count (CEvent.cleanupRun g) ≤ 1
  pending_fresh : ∀ g, s.pending = some g →
    CEvent.cleanupRun g ∉ tr ∧ g + 1 = s.nextGen ∧ s.dead = false
  gen_lt : ∀ g, CEvent.bodyStart g ∈ tr ∨ CEvent.cleanupRun g ∈ tr →
    g < s.nextGen
  ordered : ∀ g n, g < n → CEvent.cleanupRun g ∈ tr →
    CEvent.bodyStart n ∈ tr →
    [CEvent.cleanupRun g, CEvent.bodyStart n].Sublist tr

/-- The freshly created effect satisfies the invariant. -/
theorem effInv_init : EffInv ⟨0, none, false⟩ [] := by
  constructor
  · intro g; simp
  · intro g hg; exact Option.noConfusion hg
  · intro g hg
    rcases hg with hg | hg <;> exact absurd hg (List.not_mem_nil _)
  · intro g n _ hc _
    exact absurd hc (List.not_mem_nil _)

/-- Every protocol step preserves the cleanup invariant. -/
theorem effStep_preserves (s : EffState) (tr : List CEvent) (op : EffOp)
    (h : EffInv s tr) :
    EffInv (effStep s op).1 (tr ++ (effStep s op).2) := by
  cases op with
  | teardown =>
      cases hdead : s.dead with
      | true =>
          have hstep : effStep s .teardown = (s, []) := by
            simp [effStep, hdead]
          rw [hstep]
          simpa using h
      | false =>
          cases hp : s.pending with
          | none =>
              have hstep : effStep s .teardown
                  = ({ s with pending := none, dead := true }, []) := by
                simp [effStep, hdead, hp, cleanupEvents]
              rw [hstep]
              dsimp only
              constructor
              · intro g; simpa using h.count_le g
              · intro g hg; exact Option.noConfusion hg
              · intro g hg
                exact h.gen_lt g (by simpa using hg)
              · intro g n hgn hc hb
                simpa using h.ordered g n hgn (by simpa using hc)
                  (by simpa using hb)
          | some gp =>
              obtain ⟨hnotin, hgen, _⟩ := h.pending_fresh gp hp
              have hstep : effStep s .teardown
                  = ({ s with pending := none, dead := true },
                      [CEvent.cleanupRun gp]) := by
                simp [effStep, hdead, hp, cleanupEvents]
              rw [hstep]
              dsimp only
              constructor
              · intro g
                rw [List.count_append]
                by_cases hgg : g = gp
                · subst hgg
                  rw [List.count_eq_zero.mpr hnotin]
                  simp
                · have : [CEvent.cleanupRun gp].count (CEvent.cleanupRun g)
                      = 0 := by
                    simp [List.count_cons, hgg]
                  rw [this]
                  simpa using h.count_le g
              · intro g hg; exact Option.noConfusion hg
              · intro g hg
                have hsplit : (CEvent.bodyStart g ∈ tr
                    ∨ CEvent.cleanupRun g ∈ tr) ∨ g = gp := by
                  rcases hg with hg | hg
                  · rcases List.mem_append.mp hg with h1 | h1
                    · exact Or.inl (Or.inl h1)
                    · rw [List.mem_singleton] at h1
                      exact absurd h1 (by simp)
                  · rcases List.mem_append.mp hg with h1 | h1
                    · exact Or.inl (Or.inr h1)
                    · rw [List.mem_singleton] at h1
                      exact Or.inr (by
                        have := CEvent.cleanupRun.inj h1
                        exact this)
                rcases hsplit with h1 | h1
                · exact h.gen_lt g h1
                · subst h1; dsimp only; omega
              · intro g n hgn hc hb
                have hb2 : CEvent.bodyStart n ∈ tr := by
                  rcases List.mem_append.mp hb with h1 | h1
                  · exact h1
                  · rw [List.mem_singleton] at h1
                    exact absurd h1 (by simp)
                rcases List.mem_append.mp hc with h1 | h1
                · exact List.sublist_append_of_sublist_left
                    (h.ordered g n hgn h1 hb2)
                · rw [List.mem_singleton] at h1
                  have hgp : g = gp := CEvent.cleanupRun.inj h1
                  subst hgp
                  exfalso
                  have := h.gen_lt n (Or.inl hb2)
                  omega
  | rerun thrown returnsCleanup =>
      cases hdead : s.dead with
      | true =>
          have hstep : effStep s (.rerun thrown returnsCleanup) = (s, []) := by
            simp [effStep, hdead]
          rw [hstep]
          simpa using h
      | false =>
          have hpend : ∀ g,
              (if thrown then none
                else if returnsCleanup then some s.nextGen else none)
                = some g → g = s.nextGen := by
            intro g hg
            cases thrown with
            | true => simp at hg
            | false =>
                cases returnsCleanup with
                | true =>
                    simp at hg
                    omega
                | false => simp at hg
          cases hp : s.pending with
          | none =>
              have hstep : effStep s (.rerun thrown returnsCleanup)
                  = (⟨s.nextGen + 1,
                      if thrown then none
                        else if returnsCleanup then some s.nextGen else none,
                      false⟩,
                     [CEvent.bodyStart s.nextGen]) := by
                simp [effStep, hdead, hp, cleanupEvents]
              rw [hstep]
              dsimp only
              constructor
              · intro g
                rw [List.count_append]
                have : [CEvent.bodyStart s.nextGen].count
                    (CEvent.cleanupRun g) = 0 := by simp
                rw [this]
                simpa using h.count_le g
              · intro g hg
                have hgn : g = s.nextGen := hpend g hg
                subst hgn
                refine ⟨?_, rfl, rfl⟩
                intro hmem
                rcases List.mem_append.mp hmem with h1 | h1
                · exact absurd (h.gen_lt _ (Or.inr h1)) (lt_irrefl _)
                · rw [List.mem_singleton] at h1
                  exact absurd h1 (by simp)
              · intro g hg
                have hsplit : (CEvent.bodyStart g ∈ tr
                    ∨ CEvent.cleanupRun g ∈ tr) ∨ g = s.nextGen := by
                  rcases hg with hg | hg
                  · rcases List.mem_append.mp hg with h1 | h1
                    · exact Or.inl (Or.inl h1)
                    · rw [List.mem_singleton] at h1
                      exact Or.inr (CEvent.bodyStart.inj h1)
                  · rcases List.mem_append.mp hg with h1 | h1
                    · exact Or.inl (Or.inr h1)
                    · rw [List.mem_singleton] at h1
                      exact absurd h1 (by simp)
                rcases hsplit with h1 | h1
                · have := h.gen_lt g h1; dsimp only; omega
                · subst h1; dsimp only; omega
              · intro g n hgn hc hb
                have hc2 : CEvent.cleanupRun g ∈ tr := by
                  rcases List.mem_append.mp hc with h1 | h1
                  · exact h1
                  · rw [List.mem_singleton] at h1
                    exact absurd h1 (by simp)
                rcases List.mem_append.mp hb with h1 | h1
                · exact List.sublist_append_of_sublist_left
                    (h.ordered g n hgn hc2 h1)
                · rw [List.mem_singleton] at h1
                  have hn : n = s.nextGen := CEvent.bodyStart.inj h1
                  subst hn
                  exact List.Sublist.append
                    (List.singleton_sublist.mpr hc2) (List.Sublist.refl _)
          | some gp =>
              obtain ⟨hnotin, hgen, _⟩ := h.pending_fresh gp hp
              have hstep : effStep s (.rerun thrown returnsCleanup)
                  = (⟨s.nextGen + 1,
                      if thrown then none
                        else if returnsCleanup then some s.nextGen else none,
                      false⟩,
                     [CEvent.cleanupRun gp, CEvent.bodyStart s.nextGen]) := by
                simp [effStep, hdead, hp, cleanupEvents]
              rw [hstep]
              dsimp only
              constructor
              · intro g
                rw [List.count_append]
                by_cases hgg : g = gp
                · subst hgg
                  rw [List.count_eq_zero.mpr hnotin]
                  simp [List.count_cons]
                · have : [CEvent.cleanupRun gp,
                      CEvent.bodyStart s.nextGen].count
                      (CEvent.cleanupRun g) = 0 := by
                    simp [List.count_cons, hgg]
                  rw [this]
                  simpa using h.count_le g
              · intro g hg
                have hgn : g = s.nextGen := hpend g hg
                subst hgn
                refine ⟨?_, rfl, rfl⟩
                intro hmem
                rcases List.mem_append.mp hmem with h1 | h1
                · exact absurd (h.gen_lt _ (Or.inr h1)) (lt_irrefl _)
                · rcases List.mem_cons.mp h1 with h2 | h2
                  · have := CEvent.cleanupRun.inj h2
                    omega
                  · rw [List.mem_singleton] at h2
                    exact absurd h2 (by simp)
              · intro g hg
                have hsplit : (CEvent.bodyStart g ∈ tr
                    ∨ CEvent.cleanupRun g ∈ tr) ∨ g = gp ∨ g = s.nextGen := by
                  rcases hg with hg | hg
                  · rcases List.mem_append.mp hg with h1 | h1
                    · exact Or.inl (Or.inl h1)
                    · rcases List.mem_cons.mp h1 with h2 | h2
                      · exact absurd h2 (by simp)
                      · rw [List.mem_singleton] at h2
                        exact Or.inr (Or.inr (CEvent.bodyStart.inj h2))
                  · rcases List.mem_append.mp hg with h1 | h1
                    · exact Or.inl (Or.inr h1)
                    · rcases List.mem_cons.mp h1 with h2 | h2
                      · exact Or.inr (Or.inl (CEvent.cleanupRun.inj h2))
                      · rw [List.mem_singleton] at h2
                        exact absurd h2 (by simp)
                rcases hsplit with h1 | h1 | h1
                · have := h.gen_lt g h1; dsimp only; omega
                · subst h1; dsimp only; omega
                · subst h1; dsimp only; omega
              · intro g n hgn hc hb
                have hbsplit : CEvent.bodyStart n ∈ tr ∨ n = s.nextGen := by
                  rcases List.mem_append.mp hb with h1 | h1
                  · exact Or.inl h1
                  · rcases List.mem_cons.mp h1 with h2 | h2
                    · exact absurd h2 (by simp)
                    · rw [List.mem_singleton] at h2
                      exact Or.inr (CEvent.bodyStart.inj h2)
                have hcsplit : CEvent.cleanupRun g ∈ tr ∨ g = gp := by
                  rcases List.mem_append.mp hc with h1 | h1
                  · exact Or.inl h1
                  · rcases List.mem_cons.mp h1 with h2 | h2
                    · exact Or.inr (CEvent.cleanupRun.inj h2)
                    · rw [List.mem_singleton] at h2
                      exact absurd h2 (by simp)
                rcases hcsplit with hcg | hcg
                · rcases hbsplit with hbn | hbn
                  · exact List.sublist_append_of_sublist_left
                      (h.ordered g n hgn hcg hbn)
                  · subst hbn
                    refine List.Sublist.append
                      (List.singleton_sublist.mpr hcg) ?_
                    exact (List.Sublist.refl _).cons _
                · subst hcg
                  rcases hbsplit with hbn | hbn
                  · exfalso
                    have := h.gen_lt n (Or.inl hbn)
                    omega
                  · subst hbn
                    exact List.sublist_append_right tr _

/-- The invariant holds after any operation sequence, from any invariant
state. -/
theorem effRun_inv_aux :
    ∀ (ops : List EffOp) (s : EffState) (tr : List CEvent), EffInv s tr →
      EffInv ((ops.foldl
        (fun acc op =>
          let out := effStep acc.1 op
          (out.1, acc.2 ++ out.2)) (s, tr)).1)
        ((ops.foldl
          (fun acc op =>
            let out := effStep acc.1 op
            (out.1, acc.2 ++ out.2)) (s, tr)).2) := by
  intro ops
  induction ops with
  | nil => intro s tr h; exact h
  | cons op rest ih =>
      intro s tr h
      rw [List.foldl_cons]
      exact ih (effStep s op).1 (tr ++ (effStep s op).2)
        (effStep_preserves s tr op h)

/-- The invariant holds for every run from the fresh effect. -/
theorem effRun_inv (ops : List EffOp) :
    EffInv (effRun ops).1 (effRun ops).2 :=
  effRun_inv_aux ops ⟨0, none, false⟩ [] effInv_init

/-- C7: over every operation sequence, each run's cleanup executes at
most once; every executed cleanup completes strictly before any later
run's body starts (the previous cleanup precedes the next invocation's
side effects); and tearing down an effect with a pending cleanup makes
that cleanup execute exactly once overall — on every exit path, including
after a run that threw and when the effect never re-ran. -/
theorem effect_cleanup_protocol (ops : List EffOp) :
    (∀ g, (effRun ops).2.count (CEvent.cleanupRun g) ≤ 1) ∧
    (∀ g n, g < n → CEvent.cleanupRun g ∈ (effRun ops).2 →
      CEvent.bodyStart n ∈ (effRun ops).2 →
      [CEvent.cleanupRun g, CEvent.bodyStart n].Sublist (effRun ops).2) ∧
    (∀ g, (effRun ops).1.pending = some g →
      (effRun (ops ++ [EffOp.teardown])).2.count (CEvent.cleanupRun g)
        = 1) := by
  have hinv := effRun_inv ops
  refine ⟨hinv.count_le, hinv.ordered, ?_⟩
  intro g hg
  obtain ⟨hnotin, hgen, hdead⟩ := hinv.pending_fresh g hg
  have happ : (effRun (ops ++ [EffOp.teardown])).2
      = (effRun ops).2 ++ (effStep (effRun ops).1 .teardown).2 := by
    unfold effRun
    rw [List.foldl_append]
    rfl
  have hstep : (effStep (effRun ops).1 .teardown).2
      = [CEvent.cleanupRun g] := by
    simp [effStep, hdead, hg, cleanupEvents]
  rw [happ, hstep, List.count_append, List.count_eq_zero.mpr hnotin]
  simp

/-- Witness for C7: two runs each returning a cleanup — run 0's cleanup
precedes run 1's body start in the trace, and tearing down afterwards
runs run 1's pending cleanup exactly once. -/
theorem effect_cleanup_protocol_witness :
    ([CEvent.cleanupRun 0, CEvent.bodyStart 1].Sublist
      (effRun [.rerun false true, .rerun false true]).2) ∧
    ((effRun ([.rerun false true, .rerun false true]
        ++ [EffOp.teardown])).2.count (CEvent.cleanupRun 1) = 1) :=
  ⟨(effect_cleanup_protocol [.rerun false true, .rerun false true]).2.1 0 1
      (by decide) (by decide) (by decide),
    (effect_cleanup_protocol [.rerun false true, .rerun false true]).2.2 1
      (by decide)⟩

end Refract
